import Mathlib

/-!
Formal model of `src/scripts/web_scraper/web_scraper.py`.

The scraper is a two-stage pipeline: `step_scan` discovers a site's pages
(via `get_sitemap_urls`, falling back to `crawl_site`) and persists them as
a plan; `step_scrape` loads the plan, fetches each URL and writes one
Markdown file per successfully fetched page.

Shallow-embedding conventions used throughout:
- URLs are Lean `String`s; the pieces of `urllib.parse` the script consults
  (`urlparse(...).netloc`, `urlparse(...).path`, `split('#')[0]`,
  `endswith`, `strip`, `replace`) are modelled on the underlying character
  lists.
- The network is a parameter: page fetches, the sitemap response and link
  extraction (`requests`, `BeautifulSoup`, `urljoin` resolution of each
  `href` against the base URL) are supplied as functions/values, since the
  script only consumes their results.
- Python's `set` used in `step_scan`'s `list(set(urls))` is modelled by
  `List.dedup`; the properties proved about it are insensitive to the
  iteration order of a Python set.
- File-system and JSON mechanics are modelled as passing the written value
  through unchanged (the spec places (de)serialization out of scope).
-/

namespace WebScraper

/-- Characters allowed in a URL scheme after the initial letter, mirroring
`urllib.parse.scheme_chars`. -/
def isSchemeChar (c : Char) : Bool :=
  c.isAlphanum || c == '+' || c == '-' || c == '.'

/-- The components of `urllib.parse.urlparse` that the scraper consults
(`params` is never used by the script and is omitted). -/
structure UrlParts where
  scheme : String
  netloc : String
  path : String
  query : String
  fragment : String
  deriving Repr, DecidableEq

/-- Parse of the fragment-free part of a URL into
`(scheme, netloc, path, query)`, mirroring CPython `urlsplit`: a scheme is
recognised when the first `:` is preceded by a letter followed by scheme
characters; a netloc is present exactly when the remainder then begins with
`//` and extends to the next `/`, `?` or `#`; the query follows the first
`?` of what is left and the path is the rest. -/
def parseMain (rest : List Char) : List Char × List Char × List Char × List Char :=
  let before := rest.takeWhile (fun c => c != ':')
  let afterColon := rest.dropWhile (fun c => c != ':')
  let hasScheme :=
    match afterColon, before with
    | _ :: _, c :: cs => c.isAlpha && cs.all isSchemeChar
    | _, _ => false
  let scheme := if hasScheme then before.map Char.toLower else []
  let rest1 := if hasScheme then afterColon.drop 1 else rest
  let netPresent := rest1.take 2 = ['/', '/']
  let afterSlashes := rest1.drop 2
  let notDelim := fun c => !(c == '/' || c == '?' || c == '#')
  let netloc := if netPresent then afterSlashes.takeWhile notDelim else []
  let rest2 := if netPresent then afterSlashes.dropWhile notDelim else rest1
  let path := rest2.takeWhile (fun c => c != '?')
  let query := (rest2.dropWhile (fun c => c != '?')).drop 1
  (scheme, netloc, path, query)

/-- Model of `urllib.parse.urlparse` for the URL shapes the scraper
handles: the fragment is everything after the first `#`, the rest is split
by `parseMain`. -/
def urlparse (s : String) : UrlParts :=
  let m := parseMain (s.data.takeWhile (fun c => c != '#'))
  ⟨String.mk m.1, String.mk m.2.1, String.mk m.2.2.1, String.mk m.2.2.2,
   String.mk ((s.data.dropWhile (fun c => c != '#')).drop 1)⟩

/-- `urlparse(url).netloc` — the authority of a URL. -/
def netlocOf (s : String) : String := (urlparse s).netloc

/-- `urlparse(url).path`. -/
def pathOf (s : String) : String := (urlparse s).path

/-- `full_url.split('#')[0]` (line 105): everything before the first `#`. -/
def stripFragment (s : String) : String :=
  String.mk (s.data.takeWhile (fun c => c != '#'))

/-- Python `s.endswith(suffix)`, as a suffix test on the character list. -/
def strEndsWith (s suffix : String) : Bool :=
  suffix.data.isSuffixOf s.data

/-- Python `s.replace(old, new)` for one-character `old`/`new`, which
substitutes character-wise. -/
def replaceChar (old new : Char) (s : String) : String :=
  String.mk (s.data.map (fun c => if c = old then new else c))

/-- Python `s.strip(ch)` for a single character: drop every leading and
trailing occurrence of `ch`. -/
def stripChar (ch : Char) (s : String) : String :=
  String.mk (((s.data.dropWhile (fun c => c == ch)).reverse.dropWhile
    (fun c => c == ch)).reverse)

/-! ## The crawler (`crawl_site`, lines 72-111)

The network is abstracted as `links : String → List String`, giving for
each fetched page URL the list of resolved hyperlink targets, in document
order — i.e. the successive values of `urljoin(base_url, link["href"])` at
line 97. A page whose fetch raises or returns a non-200 status contributes
the empty list (the code skips link extraction for it either way and
continues the loop). -/

/-- The extension blacklist of line 103. -/
def badExts : List String := [".png", ".jpg", ".pdf", ".css", ".js"]

/-- `any(full_url.endswith(ext) for ext in [...])` (line 103): note the
test is applied to the whole resolved URL string, not to its path. -/
def hasBadExt (u : String) : Bool :=
  badExts.any (fun ext => strEndsWith u ext)

/-- The body of the `for link in soup.find_all(...)` loop (lines 95-105):
given the current `visited` set, the queue accumulated so far and one
resolved link target `full`, append the fragment-stripped URL when the
link passes every filter. -/
def considerLink (domain : String) (visited q : List String) (full : String) :
    List String :=
  if netlocOf full = domain ∧ full ∉ visited ∧ full ∉ q ∧ hasBadExt full = false then
    q ++ [stripFragment full]
  else q

/-- The crawl's mutable state: `visited` (a Python set, modelled as the
list of insertions — only membership is consulted), the FIFO `queue`
(the frontier) and the `found_urls` result list. -/
structure CrawlState where
  visited : List String
  queue : List String
  found : List String
  deriving Repr, DecidableEq

/-- One iteration of the `while queue and len(found_urls) < max_pages`
loop (lines 81-108). `none` means the loop guard fails and the loop
exits. -/
def crawlStep (links : String → List String) (domain : String) (maxPages : Nat)
    (s : CrawlState) : Option CrawlState :=
  match s.queue with
  | [] => none
  | current :: rest =>
    if maxPages ≤ s.found.length then none
    else if current ∈ s.visited then some ⟨s.visited, rest, s.found⟩
    else
      let visited := current :: s.visited
      let queue := (links current).foldl (fun q full => considerLink domain visited q full) rest
      some ⟨visited, queue, s.found ++ [current]⟩

/-- Run `n` loop iterations; `none` when the loop has already exited. The
states `stepN … n init` ranges over are exactly the states the traversal
loop passes through. -/
def stepN (links : String → List String) (domain : String) (maxPages : Nat) :
    Nat → CrawlState → Option CrawlState
  | 0, s => some s
  | n + 1, s =>
    match crawlStep links domain maxPages s with
    | none => none
    | some t => stepN links domain maxPages n t

/-- Run the loop to completion, with `fuel` bounding the number of
iterations (the Python loop terminates because each iteration pops the
queue; results below hold for every fuel value). -/
def crawlRun (links : String → List String) (domain : String) (maxPages : Nat) :
    Nat → CrawlState → CrawlState
  | 0, s => s
  | n + 1, s =>
    match crawlStep links domain maxPages s with
    | none => s
    | some t => crawlRun links domain maxPages n t

/-- Lines 76-79: `visited = set(); queue = [base_url]; found_urls = []`. -/
def initState (base_url : String) : CrawlState := ⟨[], [base_url], []⟩

/-- `crawl_site(base_url, max_pages)`: run the BFS loop from the initial
state with `domain = urlparse(base_url).netloc` and return `found_urls`. -/
def crawl_site (links : String → List String) (base_url : String)
    (maxPages fuel : Nat) : List String :=
  (crawlRun links (netlocOf base_url) maxPages fuel (initState base_url)).found

/-- A page graph exercising fragment links: the seed page links to the
same target under two distinct fragments. -/
def exLinks : String → List String := fun u =>
  if u = "http://s/" then ["http://s/p#a", "http://s/p#b"] else []

/-- A page graph whose links are all fragment-free. -/
def exLinksNF : String → List String := fun u =>
  if u = "http://s/" then ["http://s/a"] else []

/-! ## The sitemap probe (`get_sitemap_urls`, lines 53-69) -/

/-- Outcome of the single `requests.get(sitemap_url, timeout=10)` call,
paired with parsing: `err` models an exception; `ok status locs` models a
response with the given status code whose parsed document contains the
listed `<loc>` texts in document order (an unparseable body yields no
`loc` tags, i.e. `locs = []`). -/
inductive SitemapResp where
  | err : SitemapResp
  | ok : Nat → List String → SitemapResp
  deriving Repr, DecidableEq

/-- `get_sitemap_urls`: on a 200 response with at least one `<loc>` entry
return the entries as extracted; in every other case return `[]`. -/
def get_sitemap_urls (resp : SitemapResp) : List String :=
  match resp with
  | .err => []
  | .ok status locs => if status = 200 ∧ locs ≠ [] then locs else []

/-! ## The plan (`step_scan`, lines 114-142) -/

/-- The persisted plan: `{"base_url": ..., "urls": [...]}` (line 135). -/
structure CrawlPlan where
  base_url : String
  urls : List String
  deriving Repr, DecidableEq

/-- Lines 133-138: the saved plan. `list(set(urls))` is modelled by
`List.dedup`; writing the JSON file is modelled as producing the value
(serialization mechanics are outside the model, per the spec's scope). -/
def save_plan (base : String) (urls : List String) : CrawlPlan :=
  ⟨base, urls.dedup⟩

/-- Lines 124-127: the URL list `step_scan` assembles — the sitemap result
if non-empty, otherwise the fallback crawl with the default
`max_pages=50`. -/
def scanUrls (resp : SitemapResp) (links : String → List String) (fuel : Nat)
    (url : String) : List String :=
  if get_sitemap_urls resp = [] then crawl_site links url 50 fuel
  else get_sitemap_urls resp

/-- `step_scan(url, output_dir)`: `none` models an early `return` with no
plan written (missing `--url`, or no URLs found); `some plan` models the
plan written to `sitemap.json`. -/
def step_scan (resp : SitemapResp) (links : String → List String) (fuel : Nat)
    (url : String) : Option CrawlPlan :=
  if url = "" then none
  else if scanUrls resp links fuel url = [] then none
  else some (save_plan url (scanUrls resp links fuel url))

/-! ## Filenames (`clean_filename`, lines 145-151) -/

/-- `clean_filename(url)`: the path component, stripped of leading and
trailing `/`; `"index"` when that is empty; otherwise
`path.replace("/", "_").replace("-", "_")`. -/
def clean_filename (url : String) : String :=
  let path := stripChar '/' (pathOf url)
  if path = "" then "index"
  else replaceChar '-' '_' (replaceChar '/' '_' path)

/-- The slug function exactly as the spec words it (§4.4 step 5 and §8):
strip leading/trailing `/` from the path; if empty use `"index"`;
otherwise replace every `/` and every `-` with `_` (stated as a single
simultaneous replacement). Kept separate from `clean_filename` so the two
can be compared. -/
def slug_spec (path : String) : String :=
  let p := stripChar '/' path
  if p = "" then "index"
  else String.mk (p.data.map (fun c => if c = '/' ∨ c = '-' then '_' else c))

/-! ## The scrape stage (`step_scrape`, lines 154-201) -/

/-- Outcome of one `requests.get(url, timeout=10)` in the scrape loop:
`err` models an exception, `ok status body` a response with `.status_code`
and `.text`. -/
inductive Fetched where
  | err : Fetched
  | ok : Nat → String → Fetched
  deriving Repr, DecidableEq

/-- The metadata header of line 188, with the fetch timestamp abstracted
as `now`. -/
def header (url now : String) : String :=
  "---\nurl: " ++ url ++ "\ndate: " ++ now ++ "\n---\n\n"

/-- The body of the scrape loop for one URL (lines 174-199): `none` when
no file is written for the URL (fetch exception, caught, or non-200
status); `some (filename, content)` for the file written on success.
`conv` is the external `markdownify` capability. -/
def scrape_one (conv : String → String) (now : String)
    (fetch : String → Fetched) (url : String) : Option (String × String) :=
  match fetch url with
  | .err => none
  | .ok status body =>
    if status = 200 then
      some (clean_filename url ++ ".md", header url now ++ conv body)
    else none

/-- Observable outcome of `step_scrape`: whether the missing-plan error
(line 160) was reported, which URLs the loop iterated over (each gets a
`time.sleep` and a fetch), and the files written, in order. -/
structure ScrapeRun where
  missingScan : Bool
  attempted : List String
  files : List (String × String)
  deriving Repr, DecidableEq

/-- `step_scrape(output_dir, delay)`: `store` models the presence and
content of `sitemap.json` in the output directory (`none` = file absent).
An empty `urls` list logs and returns; otherwise every URL is processed in
plan order and the successful ones produce files. -/
def step_scrape (conv : String → String) (now : String)
    (fetch : String → Fetched) (store : Option CrawlPlan) : ScrapeRun :=
  match store with
  | none => ⟨true, [], []⟩
  | some plan =>
    if plan.urls = [] then ⟨false, [], []⟩
    else ⟨false, plan.urls, plan.urls.filterMap (scrape_one conv now fetch)⟩

/-- The scrape stage's read of the plan file (lines 163-166), given the
modelled store. -/
def load_urls (store : Option CrawlPlan) : List String :=
  match store with
  | none => []
  | some p => p.urls

/-- A fetch environment where `http://s/a` succeeds and every other URL
answers HTTP 500. -/
def exFetch : String → Fetched := fun u =>
  if u = "http://s/a" then Fetched.ok 200 "<p>hello</p>" else Fetched.ok 500 ""

/-- A trivial stand-in for the external Markdown conversion capability. -/
def exConv : String → String := fun _ => "hello"

/-! ## Statements of spec-side conditions used by the claims -/

/-- The frontier-append condition as claim C2 words it: the link (once
fragment-stripped) is appended exactly when its authority equals the
seed's domain, it is not already visited or queued, and its *path* does
not end in a blacklisted extension. -/
def specAppendCond (domain : String) (visited q : List String) (full : String) :
    Prop :=
  netlocOf full = domain ∧ stripFragment full ∉ visited ∧
    stripFragment full ∉ q ∧ ∀ ext ∈ badExts, strEndsWith (pathOf full) ext = false

instance (domain : String) (visited q : List String) (full : String) :
    Decidable (specAppendCond domain visited q full) := by
  unfold specAppendCond
  infer_instance

/-! ## Supporting lemmas -/

theorem takeWhile_idem {α : Type} (p : α → Bool) :
    ∀ l : List α, (l.takeWhile p).takeWhile p = l.takeWhile p := by
  intro l
  induction l with
  | nil => rfl
  | cons a l ih =>
    by_cases h : p a
    · simp [List.takeWhile_cons, h, ih]
    · simp [List.takeWhile_cons, h]

theorem data_stripFragment (s : String) :
    (stripFragment s).data = s.data.takeWhile (fun c => c != '#') := rfl

/-- Stripping the fragment is idempotent. -/
theorem stripFragment_idem (s : String) :
    stripFragment (stripFragment s) = stripFragment s := by
  unfold stripFragment
  simp [takeWhile_idem]

/-- Stripping the fragment does not change the authority. -/
theorem netlocOf_stripFragment (s : String) :
    netlocOf (stripFragment s) = netlocOf s := by
  unfold netlocOf urlparse stripFragment
  simp [takeWhile_idem]

/-- Stripping the fragment does not change the path. -/
theorem pathOf_stripFragment (s : String) :
    pathOf (stripFragment s) = pathOf s := by
  unfold pathOf urlparse stripFragment
  simp [takeWhile_idem]

theorem foldl_preserve {α β : Type} (f : α → β → α) (P : α → Prop) :
    ∀ (L : List β) (a : α), (∀ a b, b ∈ L → P a → P (f a b)) → P a →
      P (L.foldl f a) := by
  intro L
  induction L with
  | nil => intro a _ ha; exact ha
  | cons b L ih =>
    intro a hstep ha
    exact ih (f a b) (fun x y hy => hstep x y (List.mem_cons_of_mem b hy))
      (hstep a b (List.mem_cons_self b L) ha)

/-- Anything in the queue after one link is considered was already there,
or is the fragment-stripped link and every filter of lines 101-103 passed
on the unstripped link. -/
theorem mem_considerLink {domain : String} {visited q : List String}
    {full u : String} (h : u ∈ considerLink domain visited q full) :
    u ∈ q ∨ (u = stripFragment full ∧ netlocOf full = domain ∧ full ∉ visited ∧
      full ∉ q ∧ hasBadExt full = false) := by
  unfold considerLink at h
  split at h
  · next hc =>
    rcases List.mem_append.mp h with h1 | h2
    · exact Or.inl h1
    · exact Or.inr ⟨List.mem_singleton.mp h2, hc⟩
  · exact Or.inl h

theorem crawlStep_none {links : String → List String} {d : String} {m : Nat}
    {s : CrawlState} (h : s.queue = []) : crawlStep links d m s = none := by
  unfold crawlStep
  rw [h]

/-- Case analysis on one loop iteration. -/
theorem crawlStep_some {links : String → List String} {d : String} {m : Nat}
    {s t : CrawlState} (h : crawlStep links d m s = some t) :
    ∃ current rest, s.queue = current :: rest ∧ s.found.length < m ∧
      ((current ∈ s.visited ∧ t = ⟨s.visited, rest, s.found⟩) ∨
       (current ∉ s.visited ∧
        t = ⟨current :: s.visited,
             (links current).foldl
               (fun q full => considerLink d (current :: s.visited) q full) rest,
             s.found ++ [current]⟩)) := by
  obtain ⟨v, q, f⟩ := s
  cases q with
  | nil => exact absurd h (by simp [crawlStep])
  | cons current rest =>
    simp only [crawlStep] at h
    by_cases hm : m ≤ f.length
    · rw [if_pos hm] at h; exact absurd h (by simp)
    · rw [if_neg hm] at h
      refine ⟨current, rest, rfl, Nat.lt_of_not_le hm, ?_⟩
      by_cases hv : current ∈ v
      · rw [if_pos hv] at h
        exact Or.inl ⟨hv, (Option.some_injective _ h).symm⟩
      · rw [if_neg hv] at h
        exact Or.inr ⟨hv, (Option.some_injective _ h).symm⟩

/-- Invariant transfer along `stepN`. -/
theorem stepN_inv {links : String → List String} {d : String} {m : Nat}
    (P : CrawlState → Prop)
    (hstep : ∀ s t, crawlStep links d m s = some t → P s → P t) :
    ∀ n s t, stepN links d m n s = some t → P s → P t := by
  intro n
  induction n with
  | zero =>
    intro s t h hs
    simp only [stepN] at h
    exact (Option.some_injective _ h) ▸ hs
  | succ n ih =>
    intro s t h hs
    simp only [stepN] at h
    cases hc : crawlStep links d m s with
    | none => rw [hc] at h; exact absurd h (by simp)
    | some u => rw [hc] at h; exact ih u t h (hstep s u hc hs)

/-- Invariant transfer along `crawlRun`. -/
theorem crawlRun_inv {links : String → List String} {d : String} {m : Nat}
    (P : CrawlState → Prop)
    (hstep : ∀ s t, crawlStep links d m s = some t → P s → P t) :
    ∀ n s, P s → P (crawlRun links d m n s) := by
  intro n
  induction n with
  | zero => intro s hs; exact hs
  | succ n ih =>
    intro s hs
    simp only [crawlRun]
    cases hc : crawlStep links d m s with
    | none => exact hs
    | some u => exact ih u (hstep s u hc hs)

/-- The result list only ever grows across iterations. -/
theorem crawlRun_found_extends {links : String → List String} {d : String}
    {m : Nat} : ∀ (n : Nat) (s : CrawlState),
      ∃ r, (crawlRun links d m n s).found = s.found ++ r := by
  intro n
  induction n with
  | zero => intro s; exact ⟨[], (List.append_nil _).symm⟩
  | succ n ih =>
    intro s
    simp only [crawlRun]
    cases hc : crawlStep links d m s with
    | none => exact ⟨[], (List.append_nil _).symm⟩
    | some u =>
      obtain ⟨c, rest, _, _, hbr⟩ := crawlStep_some hc
      obtain ⟨r, hr⟩ := ih u
      rcases hbr with ⟨_, rfl⟩ | ⟨_, rfl⟩
      · exact ⟨r, hr⟩
      · rw [hr]
        exact ⟨[c] ++ r, by simp⟩

/-- Preservation of the same-domain property of queue and result by one
iteration. -/
theorem crawlStep_domain {links : String → List String} {d : String} {m : Nat}
    {s t : CrawlState} (h : crawlStep links d m s = some t)
    (hs : (∀ u ∈ s.queue, netlocOf u = d) ∧ ∀ u ∈ s.found, netlocOf u = d) :
    (∀ u ∈ t.queue, netlocOf u = d) ∧ ∀ u ∈ t.found, netlocOf u = d := by
  obtain ⟨current, rest, hq, -, hbr⟩ := crawlStep_some h
  have hrest : ∀ u ∈ rest, netlocOf u = d :=
    fun u hu => hs.1 u (hq ▸ List.mem_cons_of_mem current hu)
  have hcur : netlocOf current = d := hs.1 current (hq ▸ List.mem_cons_self current rest)
  rcases hbr with ⟨-, rfl⟩ | ⟨-, rfl⟩
  · exact ⟨hrest, hs.2⟩
  · refine ⟨?_, ?_⟩
    · refine foldl_preserve _ (fun q => ∀ u ∈ q, netlocOf u = d) _ _ ?_ hrest
      intro q full _ hmem u hu
      rcases mem_considerLink hu with h1 | ⟨rfl, hdom, -⟩
      · exact hmem u h1
      · rw [netlocOf_stripFragment]; exact hdom
    · intro u hu
      rcases List.mem_append.mp hu with h1 | h2
      · exact hs.2 u h1
      · rw [List.mem_singleton.mp h2]; exact hcur

/-- Preservation of the page cap by one iteration. -/
theorem crawlStep_len {links : String → List String} {d : String} {m : Nat}
    {s t : CrawlState} (h : crawlStep links d m s = some t)
    (hs : s.found.length ≤ m) : t.found.length ≤ m := by
  obtain ⟨current, rest, -, hlt, hbr⟩ := crawlStep_some h
  rcases hbr with ⟨-, rfl⟩ | ⟨-, rfl⟩
  · exact hs
  · simpa using hlt

/-- Preservation of "the result list is duplicate-free and contained in
`visited`" by one iteration. -/
theorem crawlStep_nodup {links : String → List String} {d : String} {m : Nat}
    {s t : CrawlState} (h : crawlStep links d m s = some t)
    (hs : s.found.Nodup ∧ ∀ u ∈ s.found, u ∈ s.visited) :
    t.found.Nodup ∧ ∀ u ∈ t.found, u ∈ t.visited := by
  obtain ⟨current, rest, -, -, hbr⟩ := crawlStep_some h
  rcases hbr with ⟨-, rfl⟩ | ⟨hv, rfl⟩
  · exact hs
  · refine ⟨?_, ?_⟩
    · rw [List.nodup_append]
      refine ⟨hs.1, List.nodup_singleton current, ?_⟩
      intro x hx hx'
      rw [List.mem_singleton.mp hx'] at hx
      exact hv (hs.2 current hx)
    · intro u hu
      rcases List.mem_append.mp hu with h1 | h2
      · exact List.mem_cons_of_mem current (hs.2 u h1)
      · rw [List.mem_singleton.mp h2]; exact List.mem_cons_self current _

/-- Preservation of fragment-freeness of queue and result by one
iteration. -/
theorem crawlStep_frag {links : String → List String} {d : String} {m : Nat}
    {s t : CrawlState} (h : crawlStep links d m s = some t)
    (hs : (∀ u ∈ s.queue, stripFragment u = u) ∧
      ∀ u ∈ s.found, stripFragment u = u) :
    (∀ u ∈ t.queue, stripFragment u = u) ∧ ∀ u ∈ t.found, stripFragment u = u := by
  obtain ⟨current, rest, hq, -, hbr⟩ := crawlStep_some h
  have hrest : ∀ u ∈ rest, stripFragment u = u :=
    fun u hu => hs.1 u (hq ▸ List.mem_cons_of_mem current hu)
  have hcur : stripFragment current = current :=
    hs.1 current (hq ▸ List.mem_cons_self current rest)
  rcases hbr with ⟨-, rfl⟩ | ⟨-, rfl⟩
  · exact ⟨hrest, hs.2⟩
  · refine ⟨?_, ?_⟩
    · refine foldl_preserve _ (fun q => ∀ u ∈ q, stripFragment u = u) _ _ ?_ hrest
      intro q full _ hmem u hu
      rcases mem_considerLink hu with h1 | ⟨rfl, -⟩
      · exact hmem u h1
      · exact stripFragment_idem full
    · intro u hu
      rcases List.mem_append.mp hu with h1 | h2
      · exact hs.2 u h1
      · rw [List.mem_singleton.mp h2]; exact hcur

/-- When all extracted links are fragment-free, one iteration preserves
the frontier invariant: no queued URL is visited, no duplicates. -/
theorem crawlStep_frontier {links : String → List String} {d : String} {m : Nat}
    {s t : CrawlState}
    (hfrag : ∀ u, ∀ full ∈ links u, stripFragment full = full)
    (h : crawlStep links d m s = some t)
    (hs : (∀ u ∈ s.queue, u ∉ s.visited) ∧ s.queue.Nodup) :
    (∀ u ∈ t.queue, u ∉ t.visited) ∧ t.queue.Nodup := by
  obtain ⟨current, rest, hq, -, hbr⟩ := crawlStep_some h
  have hrestv : ∀ u ∈ rest, u ∉ s.visited :=
    fun u hu => hs.1 u (hq ▸ List.mem_cons_of_mem current hu)
  have hrestn : rest.Nodup ∧ current ∉ rest := by
    have := hq ▸ hs.2
    exact ⟨(List.nodup_cons.mp this).2, (List.nodup_cons.mp this).1⟩
  rcases hbr with ⟨-, rfl⟩ | ⟨-, rfl⟩
  · exact ⟨hrestv, hrestn.1⟩
  · have hinit : (∀ u ∈ rest, u ∉ current :: s.visited) ∧ rest.Nodup := by
      refine ⟨?_, hrestn.1⟩
      intro u hu hmem
      rcases List.mem_cons.mp hmem with rfl | hmem'
      · exact hrestn.2 hu
      · exact hrestv u hu hmem'
    refine foldl_preserve _
      (fun q => (∀ u ∈ q, u ∉ current :: s.visited) ∧ q.Nodup) _ _ ?_ hinit
    intro q full hfull hmem
    unfold considerLink
    split
    · next hc =>
      obtain ⟨-, hvis, hqmem, -⟩ := hc
      rw [hfrag current full hfull]
      refine ⟨?_, ?_⟩
      · intro u hu
        rcases List.mem_append.mp hu with h1 | h2
        · exact hmem.1 u h1
        · rw [List.mem_singleton.mp h2]; exact hvis
      · rw [List.nodup_append]
        refine ⟨hmem.2, List.nodup_singleton full, ?_⟩
        intro x hx hx'
        rw [List.mem_singleton.mp hx'] at hx
        exact hqmem hx
    · exact hmem

/-- Every URL the crawl returns has the seed's authority. -/
theorem crawl_site_netloc (links : String → List String) (base : String)
    (maxPages fuel : Nat) :
    ∀ u ∈ crawl_site links base maxPages fuel, netlocOf u = netlocOf base := by
  have h := @crawlRun_inv links (netlocOf base) maxPages
    (fun s => (∀ u ∈ s.queue, netlocOf u = netlocOf base) ∧
      ∀ u ∈ s.found, netlocOf u = netlocOf base)
    (fun _ _ hst hs => crawlStep_domain hst hs) fuel (initState base)
    ⟨by intro u hu; rw [List.mem_singleton.mp hu], by intro u hu; cases hu⟩
  exact h.2

/-- The crawl returns at most `maxPages` URLs. -/
theorem crawl_site_len (links : String → List String) (base : String)
    (maxPages fuel : Nat) :
    (crawl_site links base maxPages fuel).length ≤ maxPages :=
  @crawlRun_inv links (netlocOf base) maxPages (fun s => s.found.length ≤ maxPages)
    (fun _ _ hst hs => crawlStep_len hst hs) fuel (initState base) (Nat.zero_le _)

/-- The crawl's result list holds no duplicates. -/
theorem crawl_site_nodup (links : String → List String) (base : String)
    (maxPages fuel : Nat) : (crawl_site links base maxPages fuel).Nodup :=
  (@crawlRun_inv links (netlocOf base) maxPages
    (fun s => s.found.Nodup ∧ ∀ u ∈ s.found, u ∈ s.visited)
    (fun _ _ hst hs => crawlStep_nodup hst hs) fuel (initState base)
    ⟨List.nodup_nil, fun u hu => absurd hu (List.not_mem_nil u)⟩).1

/-- When the seed is fragment-free, so is every URL the crawl returns. -/
theorem crawl_site_frag (links : String → List String) (base : String)
    (maxPages fuel : Nat) (hbase : stripFragment base = base) :
    ∀ u ∈ crawl_site links base maxPages fuel, stripFragment u = u := by
  have h := @crawlRun_inv links (netlocOf base) maxPages
    (fun s => (∀ u ∈ s.queue, stripFragment u = u) ∧
      ∀ u ∈ s.found, stripFragment u = u)
    (fun _ _ hst hs => crawlStep_frag hst hs) fuel (initState base)
    ⟨by intro u hu; rw [List.mem_singleton.mp hu]; exact hbase,
     by intro u hu; cases hu⟩
  exact h.2

/-- With at least one iteration of fuel and a positive page cap, the crawl
records the seed first. -/
theorem crawl_site_head (links : String → List String) (base : String)
    (maxPages fuel : Nat) (hm : 1 ≤ maxPages) (hf : 1 ≤ fuel) :
    ∃ r, crawl_site links base maxPages fuel = base :: r := by
  obtain ⟨n, rfl⟩ : ∃ n, fuel = n + 1 := by
    cases fuel with
    | zero => exact absurd hf (by simp)
    | succ n => exact ⟨n, rfl⟩
  unfold crawl_site
  have h0 : ¬ maxPages ≤ (0 : Nat) := by omega
  have hstep : crawlStep links (netlocOf base) maxPages (initState base) =
      some ⟨[base],
        (links base).foldl (fun q full => considerLink (netlocOf base) [base] q full) [],
        [base]⟩ := by
    simp [crawlStep, initState, h0]
  simp only [crawlRun, hstep]
  obtain ⟨r, hr⟩ := @crawlRun_found_extends links (netlocOf base) maxPages n
    (⟨[base],
      (links base).foldl (fun q full => considerLink (netlocOf base) [base] q full) [],
      [base]⟩ : CrawlState)
  exact ⟨r, by simpa using hr⟩

/-- Sanity checks of the URL model against the behaviour of
`urllib.parse` on the URL shapes the scraper handles. -/
theorem urlModel_sanity :
    netlocOf "http://s/" = "s" ∧
    netlocOf "http://s/p#a" = "s" ∧
    pathOf "http://s/img.png#c" = "/img.png" ∧
    stripFragment "http://s/p#a" = "http://s/p" ∧
    netlocOf "a/b-c" = "" ∧
    pathOf "a/b-c" = "a/b-c" ∧
    pathOf "http://s" = "" ∧
    netlocOf "http://h:8080/x" = "h:8080" ∧
    strEndsWith "http://s/img.png" ".png" = true ∧
    strEndsWith "http://s/img.png#c" ".png" = false := by
  decide

/-- The two successive single-character replacements of line 151 amount to
one simultaneous character-wise replacement. -/
theorem replace_slash_dash (s : String) :
    replaceChar '-' '_' (replaceChar '/' '_' s) =
      String.mk (s.data.map (fun c => if c = '/' ∨ c = '-' then '_' else c)) := by
  unfold replaceChar
  rw [show (String.mk (s.data.map fun c => if c = '/' then '_' else c)).data =
      s.data.map (fun c => if c = '/' then '_' else c) from rfl]
  rw [List.map_map]
  have hfun : ((fun c => if c = '-' then '_' else c) ∘
      fun c : Char => if c = '/' then '_' else c) =
      fun c => if c = '/' ∨ c = '-' then '_' else c := by
    funext c
    show (if (if c = '/' then '_' else c) = '-' then '_'
          else (if c = '/' then '_' else c)) =
        (if c = '/' ∨ c = '-' then '_' else c)
    by_cases h1 : c = '/'
    · subst h1
      decide
    · by_cases h2 : c = '-'
      · subst h2
        decide
      · rw [if_neg h1, if_neg h2, if_neg (by simp [h1, h2])]
  rw [hfun]

/-! ## Claims -/

/-- C1 (counterexample): on a seed page linking to `http://s/p#a` and
`http://s/p#b`, one iteration of the traversal loop leaves the frontier
holding `http://s/p` twice, so the claimed no-duplicates frontier
invariant fails on the code: line 101 tests membership of the unstripped
URL while line 105 enqueues the stripped one. -/
theorem c1_counterexample :
    ∃ s, stepN exLinks (netlocOf "http://s/") 50 1 (initState "http://s/") = some s ∧
      ¬ s.queue.Nodup :=
  ⟨⟨["http://s/"], ["http://s/p", "http://s/p"], ["http://s/"]⟩, by decide, by decide⟩

/-- C1 (amended): provided every hyperlink the pages yield is already
fragment-free, every state the traversal loop of `crawl_site` reaches has
a frontier disjoint from `visited` and free of duplicates. -/
theorem c1_amended_frontier_inv (links : String → List String) (base : String)
    (maxPages n : Nat) (s : CrawlState)
    (hfrag : ∀ u, ∀ full ∈ links u, stripFragment full = full)
    (hrun : stepN links (netlocOf base) maxPages n (initState base) = some s) :
    (∀ u ∈ s.queue, u ∉ s.visited) ∧ s.queue.Nodup := by
  refine @stepN_inv links (netlocOf base) maxPages
    (fun s => (∀ u ∈ s.queue, u ∉ s.visited) ∧ s.queue.Nodup)
    (fun _ _ hst hs => crawlStep_frontier hfrag hst hs) n (initState base) s hrun
    ⟨?_, List.nodup_singleton base⟩
  intro u _ hv
  cases hv

/-- Witness for C1 (amended) on a concrete fragment-free page graph, two
iterations in. -/
theorem c1_amended_witness :
    (∀ u, ∀ full ∈ exLinksNF u, stripFragment full = full) ∧
    stepN exLinksNF (netlocOf "http://s/") 50 2 (initState "http://s/") =
      some ⟨["http://s/a", "http://s/"], [], ["http://s/", "http://s/a"]⟩ ∧
    ((∀ u ∈ ([] : List String), u ∉ (["http://s/a", "http://s/"] : List String)) ∧
      ([] : List String).Nodup) := by
  have hfrag : ∀ u, ∀ full ∈ exLinksNF u, stripFragment full = full := by
    intro u full hfull
    by_cases hu : u = "http://s/"
    · simp [exLinksNF, hu] at hfull
      rw [hfull]
      decide
    · simp [exLinksNF, hu] at hfull
  refine ⟨hfrag, by decide, ?_⟩
  exact c1_amended_frontier_inv exLinksNF "http://s/" 50 2
    ⟨["http://s/a", "http://s/"], [], ["http://s/", "http://s/a"]⟩ hfrag (by decide)

/-- C2 (counterexample): with seed domain `s` and empty `visited`/frontier,
the resolved link `http://s/img.png#c` — whose path ends in `.png` — is
nevertheless appended (as `http://s/img.png`): line 103 applies `endswith`
to the whole resolved URL, where the trailing fragment masks the
extension, so the claimed append condition is not the code's. -/
theorem c2_counterexample :
    ¬ (considerLink (netlocOf "http://s/") [] [] "http://s/img.png#c" =
        [] ++ [stripFragment "http://s/img.png#c"] ↔
      specAppendCond (netlocOf "http://s/") [] [] "http://s/img.png#c") := by
  decide

/-- C2 (amended): the fragment-stripped link is appended to the frontier
tail exactly when the *unstripped* resolved URL has the seed's authority,
is in neither `visited` nor the frontier, and the *whole URL string*
(fragment included) does not end in `.png`, `.jpg`, `.pdf`, `.css` or
`.js`. -/
theorem c2_amended_append_iff (domain : String) (visited q : List String)
    (full : String) :
    considerLink domain visited q full = q ++ [stripFragment full] ↔
      (netlocOf full = domain ∧ full ∉ visited ∧ full ∉ q ∧
        ∀ ext ∈ badExts, strEndsWith full ext = false) := by
  have hext : (hasBadExt full = false) ↔
      ∀ ext ∈ badExts, strEndsWith full ext = false := by
    simp [hasBadExt, List.any_eq_false]
  unfold considerLink
  by_cases hc : netlocOf full = domain ∧ full ∉ visited ∧ full ∉ q ∧
      hasBadExt full = false
  · rw [if_pos hc]
    exact ⟨fun _ => ⟨hc.1, hc.2.1, hc.2.2.1, hext.mp hc.2.2.2⟩, fun _ => rfl⟩
  · rw [if_neg hc]
    constructor
    · intro h
      exact absurd (congrArg List.length h) (by simp)
    · intro h
      exact absurd ⟨h.1, h.2.1, h.2.2.1, hext.mpr h.2.2.2⟩ hc

/-- C4: for every link environment, seed, page cap and fuel, `crawl_site`
returns at most `maxPages` URLs, and the authority of every returned URL
equals the seed's authority. -/
theorem c4_crawl_cap_and_domain (links : String → List String) (base : String)
    (maxPages fuel : Nat) :
    (crawl_site links base maxPages fuel).length ≤ maxPages ∧
      ∀ u ∈ crawl_site links base maxPages fuel, netlocOf u = netlocOf base :=
  ⟨crawl_site_len links base maxPages fuel,
   crawl_site_netloc links base maxPages fuel⟩

/-- C10: the crawl's result list never holds duplicates, and with a
positive page cap (and at least one iteration of fuel) it is non-empty
with the seed URL, exactly as given, as its first element. -/
theorem c10_seed_first_nodup (links : String → List String) (base : String)
    (maxPages fuel : Nat) :
    (crawl_site links base maxPages fuel).Nodup ∧
    (1 ≤ maxPages → 1 ≤ fuel →
      crawl_site links base maxPages fuel ≠ [] ∧
      (crawl_site links base maxPages fuel).head? = some base) := by
  refine ⟨crawl_site_nodup links base maxPages fuel, ?_⟩
  intro hm hf
  obtain ⟨r, hr⟩ := crawl_site_head links base maxPages fuel hm hf
  rw [hr]
  exact ⟨by simp, rfl⟩

/-- Witness for C10 at a concrete input. -/
theorem c10_witness :
    1 ≤ 1 ∧ 1 ≤ 2 ∧ (crawl_site (fun _ => []) "http://s/" 1 2).Nodup ∧
      crawl_site (fun _ => []) "http://s/" 1 2 ≠ [] ∧
      (crawl_site (fun _ => []) "http://s/" 1 2).head? = some "http://s/" :=
  ⟨Nat.le_refl 1, by decide,
   (c10_seed_first_nodup (fun _ => []) "http://s/" 1 2).1,
   ((c10_seed_first_nodup (fun _ => []) "http://s/" 1 2).2 (Nat.le_refl 1)
     (by decide)).1,
   ((c10_seed_first_nodup (fun _ => []) "http://s/" 1 2).2 (Nat.le_refl 1)
     (by decide)).2⟩

/-- C3 (counterexample): a sitemap answering 200 with the single location
`http://s/p#f` produces a written plan whose `urls` entry still carries
the fragment — sitemap-sourced URLs are stored verbatim (line 62), so the
claimed fragment-stripped invariant fails for plans built from the
sitemap. -/
theorem c3_counterexample :
    step_scan (SitemapResp.ok 200 ["http://s/p#f"]) (fun _ => []) 0 "http://s/" =
      some ⟨"http://s/", ["http://s/p#f"]⟩ ∧
    stripFragment "http://s/p#f" ≠ "http://s/p#f" := by
  decide

/-- C3 (amended): every written plan's `urls` list is duplicate-free; and
when the URLs come from the fallback crawl and the seed is fragment-free,
every stored URL is fragment-stripped and has the seed's authority (hence
is absolute whenever the seed is). The fragment-stripped/absolute part
does not extend to sitemap-sourced plans. -/
theorem c3_plan_invariant (resp : SitemapResp) (links : String → List String)
    (fuel : Nat) (url : String) (plan : CrawlPlan)
    (h : step_scan resp links fuel url = some plan) :
    plan.urls.Nodup ∧
    (get_sitemap_urls resp = [] → stripFragment url = url →
      ∀ u ∈ plan.urls, stripFragment u = u ∧ netlocOf u = netlocOf url) := by
  unfold step_scan at h
  by_cases hurl : url = ""
  · rw [if_pos hurl] at h
    exact absurd h (by simp)
  · rw [if_neg hurl] at h
    by_cases hne : scanUrls resp links fuel url = []
    · rw [if_pos hne] at h
      exact absurd h (by simp)
    · rw [if_neg hne] at h
      have hplan : plan = save_plan url (scanUrls resp links fuel url) :=
        (Option.some_injective _ h).symm
      subst hplan
      refine ⟨List.nodup_dedup _, ?_⟩
      intro hs hfragbase u hu
      have hu' : u ∈ scanUrls resp links fuel url := List.mem_dedup.mp hu
      rw [scanUrls, if_pos hs] at hu'
      exact ⟨crawl_site_frag links url 50 fuel hfragbase u hu',
             crawl_site_netloc links url 50 fuel u hu'⟩

/-- Witness for C3 (amended): a crawl-sourced plan at a concrete input. -/
theorem c3_witness :
    step_scan SitemapResp.err (fun _ => []) 1 "http://s/" =
      some ⟨"http://s/", ["http://s/"]⟩ ∧
    (⟨"http://s/", ["http://s/"]⟩ : CrawlPlan).urls.Nodup ∧
    (get_sitemap_urls SitemapResp.err = [] →
      stripFragment "http://s/" = "http://s/" →
      ∀ u ∈ (⟨"http://s/", ["http://s/"]⟩ : CrawlPlan).urls,
        stripFragment u = u ∧ netlocOf u = netlocOf "http://s/") := by
  have h : step_scan SitemapResp.err (fun _ => []) 1 "http://s/" =
      some ⟨"http://s/", ["http://s/"]⟩ := by decide
  have hc := c3_plan_invariant SitemapResp.err (fun _ => []) 1 "http://s/"
    ⟨"http://s/", ["http://s/"]⟩ h
  exact ⟨h, hc.1, hc.2⟩

/-- C5 (counterexample): a sitemap answering 200 with the same location
twice is returned with the duplicate intact — `get_sitemap_urls` performs
no deduplication (that only happens later, at line 135). -/
theorem c5_counterexample :
    get_sitemap_urls (SitemapResp.ok 200 ["http://s/a", "http://s/a"]) =
      ["http://s/a", "http://s/a"] ∧
    ¬ (["http://s/a", "http://s/a"] : List String).Nodup := by
  decide

/-- C5 (amended): on a 200 response with a non-empty location list,
`get_sitemap_urls` returns the location entries exactly as extracted —
order and multiplicity preserved, without deduplication. -/
theorem c5_sitemap_verbatim (locs : List String) (h : locs ≠ []) :
    get_sitemap_urls (SitemapResp.ok 200 locs) = locs := by
  show (if (200 : Nat) = 200 ∧ locs ≠ [] then locs else []) = locs
  rw [if_pos ⟨rfl, h⟩]

/-- Witness for C5 (amended). -/
theorem c5_witness :
    (["http://s/a"] : List String) ≠ [] ∧
    get_sitemap_urls (SitemapResp.ok 200 ["http://s/a"]) = ["http://s/a"] :=
  ⟨by decide, c5_sitemap_verbatim ["http://s/a"] (by decide)⟩

/-- C6: `clean_filename` computes exactly the spec's slug of the URL's
path — strip leading/trailing `/`, `"index"` when empty, otherwise every
`/` and `-` becomes `_` — and in particular path `a/b-c` gives `a_b_c`
and an empty path gives `index`. -/
theorem c6_clean_filename_slug :
    (∀ url, clean_filename url = slug_spec (pathOf url)) ∧
    clean_filename "a/b-c" = "a_b_c" ∧
    clean_filename "http://s/a/b-c" = "a_b_c" ∧
    clean_filename "http://s/" = "index" := by
  refine ⟨?_, by decide, by decide, by decide⟩
  intro url
  unfold clean_filename slug_spec
  by_cases hp : stripChar '/' (pathOf url) = ""
  · rw [if_pos hp, if_pos hp]
  · rw [if_neg hp, if_neg hp, replace_slash_dash]

/-- C7: saving a URL list into the plan and loading it back in the scrape
stage preserves the URL set — membership both ways, and permuted inputs
load to the same set. -/
theorem c7_save_load_roundtrip (base : String) (urls : List String) :
    (∀ u, u ∈ load_urls (some (save_plan base urls)) ↔ u ∈ urls) ∧
    ∀ urls2, urls.Perm urls2 →
      ∀ u, u ∈ load_urls (some (save_plan base urls2)) ↔
        u ∈ load_urls (some (save_plan base urls)) := by
  have hmem : ∀ (l : List String) (u : String),
      u ∈ load_urls (some (save_plan base l)) ↔ u ∈ l := by
    intro l u
    show u ∈ l.dedup ↔ u ∈ l
    exact List.mem_dedup
  refine ⟨hmem urls, ?_⟩
  intro urls2 hperm u
  rw [hmem urls2, hmem urls]
  exact hperm.mem_iff.symm

/-- Witness for C7 at a permuted concrete input. -/
theorem c7_witness :
    (∀ u, u ∈ load_urls (some (save_plan "b" ["x", "y"])) ↔
      u ∈ (["x", "y"] : List String)) ∧
    (["x", "y"] : List String).Perm ["y", "x"] ∧
    ∀ u, u ∈ load_urls (some (save_plan "b" ["y", "x"])) ↔
      u ∈ load_urls (some (save_plan "b" ["x", "y"])) :=
  ⟨(c7_save_load_roundtrip "b" ["x", "y"]).1, by decide,
   (c7_save_load_roundtrip "b" ["x", "y"]).2 ["y", "x"] (by decide)⟩

/-- C8: a plan URL whose fetch raises or answers a non-2xx status
contributes no output file, and every other URL of the plan is still
processed: the written files are exactly those of the remaining URLs, and
the loop still iterates over the whole plan. -/
theorem c8_skip_failures (conv : String → String) (now : String)
    (fetch : String → Fetched) (base : String) (us1 us2 : List String)
    (u : String)
    (hfail : fetch u = Fetched.err ∨
      ∀ st body, fetch u = Fetched.ok st body → st < 200 ∨ 300 ≤ st) :
    (step_scrape conv now fetch (some ⟨base, us1 ++ u :: us2⟩)).files =
      us1.filterMap (scrape_one conv now fetch) ++
        us2.filterMap (scrape_one conv now fetch) ∧
    (step_scrape conv now fetch (some ⟨base, us1 ++ u :: us2⟩)).attempted =
      us1 ++ u :: us2 := by
  have hnone : scrape_one conv now fetch u = none := by
    unfold scrape_one
    rcases hfail with herr | hok
    · rw [herr]
    · cases hf : fetch u with
      | err => rfl
      | ok st body =>
        have hst := hok st body hf
        exact if_neg (by omega)
  have hne : us1 ++ u :: us2 ≠ [] := by simp
  simp only [step_scrape]
  rw [if_neg hne]
  refine ⟨?_, rfl⟩
  show (us1 ++ u :: us2).filterMap (scrape_one conv now fetch) = _
  rw [List.filterMap_append, List.filterMap_cons, hnone]

/-- Witness for C8: the spec's two-URL scenario where the second URL
answers HTTP 500 — exactly one file is written. -/
theorem c8_witness :
    (exFetch "http://s/b" = Fetched.err ∨
      ∀ st body, exFetch "http://s/b" = Fetched.ok st body →
        st < 200 ∨ 300 ≤ st) ∧
    (step_scrape exConv "2024-01-01 00:00:00" exFetch
      (some ⟨"http://s/", ["http://s/a", "http://s/b"]⟩)).files.length = 1 := by
  have hfail : exFetch "http://s/b" = Fetched.err ∨
      ∀ st body, exFetch "http://s/b" = Fetched.ok st body →
        st < 200 ∨ 300 ≤ st := by
    refine Or.inr ?_
    intro st body hb
    have hb0 : exFetch "http://s/b" = Fetched.ok 500 "" := by decide
    rw [hb0] at hb
    injection hb with h1 h2
    omega
  have h := c8_skip_failures exConv "2024-01-01 00:00:00" exFetch "http://s/"
    ["http://s/a"] [] "http://s/b" hfail
  refine ⟨hfail, ?_⟩
  have hlist : ("http://s/a" :: "http://s/b" :: [] : List String) =
      ["http://s/a"] ++ "http://s/b" :: [] := rfl
  rw [hlist, h.1]
  decide

/-- C9: with no plan file present, `step_scrape` reports the missing scan
and returns without doing any work — no URL is attempted and no file is
written. -/
theorem c9_missing_plan (conv : String → String) (now : String)
    (fetch : String → Fetched) :
    step_scrape conv now fetch none = ⟨true, [], []⟩ := rfl

end WebScraper
